import Mathlib

/-!
Verification of the SmartVault backend content pipeline.

This file gives a shallow embedding, over `List Char` / `String`, of the
string-normalization, AI fallback-loop, video-platform and in-memory-storage
logic of the repository, and proves the spec's claims about them.

JavaScript strings are modelled as lists of characters; the ASCII case
conversions of `toUpperCase`/`toLowerCase` are modelled by finite letter
tables, and `\s` whitespace by the four ASCII whitespace characters.
-/

namespace SmartVault

/-- ASCII whitespace, modelling the characters the JS `\s` class matches in
the inputs we consider. -/
def isWs (c : Char) : Bool :=
  c == ' ' || c == '\t' || c == '\n' || c == '\r'

/-- Uppercase-to-lowercase letter table (models `toLowerCase` on ASCII). -/
def lowerPairs : List (Char × Char) :=
  [('A','a'),('B','b'),('C','c'),('D','d'),('E','e'),('F','f'),('G','g'),
   ('H','h'),('I','i'),('J','j'),('K','k'),('L','l'),('M','m'),('N','n'),
   ('O','o'),('P','p'),('Q','q'),('R','r'),('S','s'),('T','t'),('U','u'),
   ('V','v'),('W','w'),('X','x'),('Y','y'),('Z','z')]

/-- Lowercase-to-uppercase letter table (models `toUpperCase` on ASCII). -/
def upperPairs : List (Char × Char) :=
  [('a','A'),('b','B'),('c','C'),('d','D'),('e','E'),('f','F'),('g','G'),
   ('h','H'),('i','I'),('j','J'),('k','K'),('l','L'),('m','M'),('n','N'),
   ('o','O'),('p','P'),('q','Q'),('r','R'),('s','S'),('t','T'),('u','U'),
   ('v','V'),('w','W'),('x','X'),('y','Y'),('z','Z')]

/-- Lowercase a single character (JS `toLowerCase`, ASCII model). -/
def lowCh (c : Char) : Char :=
  ((lowerPairs.find? (fun p => p.1 == c)).map (·.2)).getD c

/-- Uppercase a single character (JS `toUpperCase`, ASCII model). -/
def upCh (c : Char) : Char :=
  ((upperPairs.find? (fun p => p.1 == c)).map (·.2)).getD c

/-- JS `toUpperCase` of one character, as a string: ECMAScript mandates the
Unicode Default Case Conversion, whose mappings may expand — most notably
the SpecialCasing entry taking 'ß' to "SS". The model carries the ASCII
simple mappings plus that expanding entry; other non-ASCII mappings are the
identity here, which is why the theorems that rely on length preservation
restrict their inputs to ASCII characters. -/
def upChS (c : Char) : List Char :=
  if c == 'ß' then ['S', 'S'] else [upCh c]

/-- JS `toLowerCase` of one character, as a string: the ASCII simple
mappings plus the expanding SpecialCasing entry taking 'İ' (U+0130) to
"i" followed by a combining dot above (U+0307). -/
def lowChS (c : Char) : List Char :=
  if c == 'İ' then ['i', '̇'] else [lowCh c]

/-- JS `s.toLowerCase()` character by character, with expanding mappings
(the concatenation of the per-character lowercase strings). -/
def lowerAll : List Char → List Char
  | [] => []
  | c :: cs => lowChS c ++ lowerAll cs

/-- Every character is ASCII. On ASCII characters the ECMAScript case
conversions are exactly the single-character ASCII mappings. -/
def allAscii (l : List Char) : Prop := ∀ c ∈ l, c.toNat < 128

/-- JS `s.toLowerCase()`. -/
def jsLower (l : List Char) : List Char := l.map lowCh

/-- JS `s.trim()`: drop whitespace from both ends. -/
def jsTrim (l : List Char) : List Char :=
  ((l.dropWhile isWs).reverse.dropWhile isWs).reverse

/-- Does `needle` occur as a contiguous segment of `hay`? -/
def containsSeg (hay needle : List Char) : Bool :=
  needle.isPrefixOf hay ||
    match hay with
    | [] => false
    | _ :: rest => containsSeg rest needle

/-- JS `hay.includes(needle)` for non-empty needles. -/
def jsIncludes (hay needle : List Char) : Bool :=
  containsSeg hay needle

/-- JS `s.split('.')[0]`: the text before the first occurrence of `c`
(the whole string when `c` does not occur). -/
def beforeFirst (c : Char) (l : List Char) : List Char :=
  l.takeWhile (· != c)

/-- JS `s.lastIndexOf(c)` (accumulator form), returning `-1` when absent. -/
def lastIndexOfAux (c : Char) : List Char → Int → Int → Int
  | [], _, best => best
  | x :: rest, i, best =>
      lastIndexOfAux c rest (i + 1) (if x == c then i else best)

/-- JS `s.lastIndexOf(c)`. -/
def jsLastIndexOf (l : List Char) (c : Char) : Int :=
  lastIndexOfAux c l 0 (-1)

/-- First maximal digit run of a string (JS `s.match(/\d+/)`). -/
def firstDigitRun : List Char → Option (List Char)
  | [] => none
  | c :: rest =>
      if c.isDigit then some (c :: rest.takeWhile Char.isDigit)
      else firstDigitRun rest

/-- Decimal value of a digit run (JS `parseInt(run, 10)`). -/
def digitsToNat (l : List Char) : Nat :=
  l.foldl (fun acc c => acc * 10 + (c.toNat - '0'.toNat)) 0

/-- Collapse whitespace runs (JS `replace(/\s+/g, ' ')`); `prevWs` records
whether the previously scanned character was whitespace. -/
def collapseAux : Bool → List Char → List Char
  | _, [] => []
  | prevWs, c :: rest =>
      if isWs c then
        if prevWs then collapseAux true rest
        else ' ' :: collapseAux true rest
      else c :: collapseAux false rest

/-- JS `s.replace(/\s+/g, ' ')`. -/
def collapseWs (l : List Char) : List Char := collapseAux false l

/-- JS `s.split(' ')`: split at every single space character. -/
def splitSp : List Char → List (List Char)
  | [] => [[]]
  | c :: rest =>
      if c == ' ' then [] :: splitSp rest
      else
        match splitSp rest with
        | [] => [[c]]
        | w :: ws => (c :: w) :: ws

/-- JS `parts.join(' ')`. -/
def joinSp : List (List Char) → List Char
  | [] => []
  | [w] => w
  | w :: ws => w ++ ' ' :: joinSp ws

/-- JS `word[0].toUpperCase() + word.slice(1).toLowerCase()`, with the empty
word left unchanged; the per-character case conversions are string-valued to
carry the expanding special-case mappings. -/
def capWord : List Char → List Char
  | [] => []
  | c :: cs => upChS c ++ lowerAll cs

/-- Title-Case every space-delimited token
(JS `s.split(' ').map(capitalize).join(' ')`). -/
def titleCase (l : List Char) : List Char :=
  joinSp ((splitSp l).map capWord)

/-- JS `s.split(/\s+/)`: split at maximal whitespace runs; a leading or
trailing run yields an empty piece. `afterWs` records whether the scanner is
inside a whitespace run. -/
def splitWsGo (acc : List Char) (afterWs : Bool) : List Char → List (List Char)
  | [] => [acc.reverse]
  | c :: rest =>
      if isWs c then
        if afterWs then splitWsGo acc true rest
        else acc.reverse :: splitWsGo [] true rest
      else splitWsGo (c :: acc) false rest

/-- JS `s.split(/\s+/)`. -/
def jsSplitWs (l : List Char) : List (List Char) := splitWsGo [] false l

/-- Delete every occurrence of the pattern `p :: ps`, fuel-bounded; every
step consumes at least one character, so fuel equal to the list length
always suffices and the fuel-exhausted branch is unreachable. -/
def stripAllFuel (p : Char) (ps : List Char) : Nat → List Char → List Char
  | 0, l => l
  | _ + 1, [] => []
  | fuel + 1, c :: rest =>
      if c == p && ps.isPrefixOf rest then
        stripAllFuel p ps fuel (rest.drop ps.length)
      else c :: stripAllFuel p ps fuel rest

/-- Delete every occurrence of the pattern `p :: ps`
(JS `replace(pattern, '')` with a literal global pattern). -/
def stripAll (p : Char) (ps : List Char) (l : List Char) : List Char :=
  stripAllFuel p ps l.length l

/-- Rewrite markdown links, fuel-bounded; every step consumes at least one
character, so fuel equal to the list length always suffices and the
fuel-exhausted branch is unreachable. -/
def stripLinksFuel : Nat → List Char → List Char
  | 0, l => l
  | _ + 1, [] => []
  | fuel + 1, c :: rest =>
      if c == '[' then
        let t := rest.takeWhile (· != ']')
        if t ≠ [] then
          match rest.drop t.length with
          | ']' :: '(' :: r2 =>
              let u := r2.takeWhile (· != ')')
              if u ≠ [] then
                match r2.drop u.length with
                | ')' :: r3 => t ++ stripLinksFuel fuel r3
                | _ => c :: stripLinksFuel fuel rest
              else c :: stripLinksFuel fuel rest
          | _ => c :: stripLinksFuel fuel rest
        else c :: stripLinksFuel fuel rest
      else c :: stripLinksFuel fuel rest

/-- JS `replace(/\[([^\]]+)\]\([^\)]+\)/g, '$1')`: rewrite every markdown
link `[text](target)` to `text`, scanning left to right without rescanning
emitted text. -/
def stripLinks (l : List Char) : List Char :=
  stripLinksFuel l.length l

/-! ## Embedding of `src/server/ai.ts` -/

/-- The fixed canonical category vocabulary (`FIXED_CATEGORIES`). -/
def FIXED_CATEGORIES : List String :=
  ["Technology", "Business", "Finance", "Marketing", "Productivity",
   "Self-Improvement", "Health", "Fitness", "Cooking", "Design",
   "Creative", "AI", "Programming", "Science", "Education", "Lifestyle"]

/-- JS `\w` word character: ASCII letter, digit or underscore. -/
def isWordCh (c : Char) : Bool :=
  c.isAlpha || c.isDigit || c == '_'

/-- The cleaned form computed by `validateCategory`: trim, strip characters
outside letters/digits/whitespace/hyphen, Title-Case each whitespace token,
and keep at most the first two tokens. -/
def categoryCleaned (l : List Char) : List Char :=
  let c1 := jsTrim l
  let c2 := c1.filter (fun c => isWordCh c || isWs c || c == '-')
  let c3 := joinSp ((jsSplitWs c2).map capWord)
  joinSp ((jsSplitWs c3).take 2)

/-- `validateCategory` on character lists. -/
def validateCategoryL (category : List Char) : List Char :=
  if category = [] then "General".data
  else
    match FIXED_CATEGORIES.find?
        (fun f => jsLower f.data == jsLower (categoryCleaned category)) with
    | some f => f.data
    | none =>
        if categoryCleaned category = [] || (categoryCleaned category).length < 2
        then "General".data
        else categoryCleaned category

/-- `validateCategory` from `ai.ts`. -/
def validateCategory (category : String) : String :=
  ⟨validateCategoryL category.data⟩

/-- `'No summary available.'`. -/
def noSummary : List Char := "No summary available.".data

/-- Is the character's codepoint inside `[lo, hi]`? -/
def inCp (lo hi : Nat) (c : Char) : Bool :=
  lo ≤ c.toNat && c.toNat ≤ hi

/-- The emoji-range strips of `validateSummary`, applied in source order. -/
def stripEmoji (l : List Char) : List Char :=
  ((((l.filter (fun c => !inCp 0x1F300 0x1F9FF c)).filter
      (fun c => !inCp 0x1F600 0x1F64F c)).filter
      (fun c => !inCp 0x1F680 0x1F6FF c)).filter
      (fun c => !inCp 0x2600 0x26FF c)).filter
      (fun c => !inCp 0x2700 0x27BF c)

/-- The markdown strips of `validateSummary`:
remove `**`, `*`, `__`, `_`, the backquote, then rewrite markdown links. -/
def stripMarkdown (l : List Char) : List Char :=
  stripLinks (stripAll (Char.ofNat 96) []
    (stripAll '_' [] (stripAll '_' ['_']
      (stripAll '*' [] (stripAll '*' ['*'] l)))))

/-- The `lastSentenceEnd` position of `validateSummary`: the largest of the
last indices of `.`, `!` and `?` in the first 200 characters. -/
def lastSentenceEnd (l : List Char) : Int :=
  max (max (jsLastIndexOf (l.take 200) '.') (jsLastIndexOf (l.take 200) '!'))
    (jsLastIndexOf (l.take 200) '?')

/-- The 200-character cap of `validateSummary`: prefer the last
sentence-terminal punctuation past position 50, else the last space past 50
plus an ellipsis, else a hard cut plus an ellipsis. -/
def capSummary (l : List Char) : List Char :=
  if 200 < l.length then
    if 50 < lastSentenceEnd l then l.take (lastSentenceEnd l + 1).toNat
    else if 50 < jsLastIndexOf (l.take 200) ' ' then
      l.take (jsLastIndexOf (l.take 200) ' ').toNat ++ "...".data
    else l.take 200 ++ "...".data
  else l

/-- `content || title`: the text source used when the summary is absent or
repeats the title. -/
def summaryTextSource (title : List Char) (content : Option (List Char)) :
    List Char :=
  match content with
  | some c => if c ≠ [] then c else title
  | none => title

/-- The early return of `validateSummary` for an absent/blank summary. -/
def summaryEarly (title : List Char) (content : Option (List Char)) :
    List Char :=
  if jsTrim ((summaryTextSource title content).take 160) = [] then noSummary
  else jsTrim ((summaryTextSource title content).take 160)

/-- The `cleaned` value of `validateSummary` just before the 200-character
cap: emoji/markdown-stripped, and regenerated from the content (or the
"Information about" filler) when it equals or starts with the title
case-insensitively. -/
def summaryCleaned (summary title : List Char) (content : Option (List Char)) :
    List Char :=
  if jsTrim (jsLower (stripMarkdown (stripEmoji (jsTrim summary))))
        = jsTrim (jsLower title) ||
      (jsTrim (jsLower title) ++ [' ']).isPrefixOf
        (jsTrim (jsLower (stripMarkdown (stripEmoji (jsTrim summary))))) then
    match content with
    | some c =>
        if c ≠ [] then jsTrim (c.take 160)
        else "Information about ".data ++ title
    | none => "Information about ".data ++ title
  else stripMarkdown (stripEmoji (jsTrim summary))

/-- `validateSummary` on character lists; `content = none` models a `null`
content argument. -/
def validateSummaryL (summary title : List Char) (content : Option (List Char)) :
    List Char :=
  if summary = [] then summaryEarly title content
  else if capSummary (summaryCleaned summary title content) = [] then noSummary
  else capSummary (summaryCleaned summary title content)

/-- `validateSummary` from `ai.ts`. -/
def validateSummary (summary title : String) (content : Option String) : String :=
  ⟨validateSummaryL summary.data title.data (content.map String.data)⟩

/-- Result type of the generic analyzer (`AIAnalysis`). -/
structure AIAnalysis where
  category : String
  summary : String
deriving DecidableEq, Repr

/-- `fallbackAnalysis` from `ai.ts`. -/
def fallbackAnalysis (title : String) (content : Option String) : AIAnalysis :=
  let textSource : List Char :=
    match content.map String.data with
    | some c => if c ≠ [] then c else title.data
    | none => title.data
  let s0 := jsTrim (textSource.take 160)
  let s := if s0 = [] then noSummary else s0
  ⟨"General", ⟨if 200 < s.length then s.take 197 ++ "...".data else s⟩⟩

/-- Structured error raised by the AI chat client: a message plus optional
HTTP-like status and error code. -/
structure AIError where
  message : String
  status : Option Nat
  code : Option String
deriving DecidableEq, Repr

/-- The model-fallback classification: the error is "model-class" when its
message mentions "model", its status is 404, or its code is
`model_not_found`. -/
def isModelClassError (e : AIError) : Bool :=
  jsIncludes e.message.data "model".data ||
    e.status == some 404 || e.code == some "model_not_found"

/-- Raw parsed JSON payload of the generic analyzer
(fields of interest of `result`). -/
structure GenRaw where
  category : Option String
  summary : Option String
deriving DecidableEq, Repr

/-- The ordered model list tried by both analyzers. -/
def modelList : List String := ["gpt-4o-mini", "gpt-4-turbo", "gpt-3.5-turbo"]

/-- The model-fallback loop: try each model in order; a successful call ends
the loop, a model-class error advances to the next model, any other error
aborts. Returns the successful payload (if any) and the list of models that
were actually called, in order. -/
def runModelLoop {α : Type} (call : String → Except AIError α) :
    List String → Option α × List String
  | [] => (none, [])
  | m :: rest =>
      match call m with
      | .ok r => (some r, [m])
      | .error e =>
          if isModelClassError e then
            let p := runModelLoop call rest
            (p.1, m :: p.2)
          else (none, [m])

/-- `analyzeContent` from `ai.ts`, abstracted over the chat client `call`
(which covers the API call plus JSON parsing/salvage of one attempt).
Returns the analysis together with the models actually called. -/
def analyzeContent (title : String) (content : Option String)
    (call : String → Except AIError GenRaw) : AIAnalysis × List String :=
  match runModelLoop call modelList with
  | (some r, tried) =>
      (⟨validateCategory (r.category.getD ""),
        validateSummary (r.summary.getD "") title content⟩, tried)
  | (none, tried) => (fallbackAnalysis title content, tried)

/-! ## Embedding of the video transcript transformation (`transformVideoContent`) -/

/-- Untyped JS value as it appears in the parsed model response: `undefined`,
`null`, a string, an integer, or an array (array elements are typed as
strings, the only element type the schema produces and the repair code never
inspects them). -/
inductive JVal where
  | jundef
  | jnull
  | jstr (s : String)
  | jnum (n : Int)
  | jarr (xs : List String)
deriving DecidableEq, Repr

/-- JS truthiness of a `JVal`. -/
def truthy : JVal → Bool
  | .jundef => false
  | .jnull => false
  | .jstr s => s ≠ ""
  | .jnum n => n ≠ 0
  | .jarr _ => true

/-- `Array.isArray`. -/
def JVal.isArr : JVal → Bool
  | .jarr _ => true
  | _ => false

/-- `typeof v === 'string'`. -/
def JVal.isStr : JVal → Bool
  | .jstr _ => true
  | _ => false

/-- JS `String(v)` coercion. -/
def jsStringOf : JVal → String
  | .jundef => "undefined"
  | .jnull => "null"
  | .jstr s => s
  | .jnum n => toString n
  | .jarr xs => String.intercalate "," xs

/-- JS truthiness of an optional string field (`undefined` and `''` are
falsy). -/
def optTruthy : Option String → Bool
  | some s => s ≠ ""
  | none => false

/-- The raw `recipe` block of a parsed model response; `name` is either
absent or a string, the remaining fields are untyped (`jundef` = absent). -/
structure RawRecipe where
  name : Option String
  ingredients : JVal
  instructions : JVal
  servings : JVal
  prepTime : JVal
  cookTime : JVal
deriving DecidableEq, Repr

/-- The post-parse repair of the recipe block: coerce
ingredients/instructions to arrays, default a missing/blank name, parse a
digit run out of a (truthy) string `servings` (deleting it when no digits),
and stringify truthy non-string times. -/
def repairRecipe (r : RawRecipe) : RawRecipe :=
  let ingredients := if !r.ingredients.isArr then JVal.jarr [] else r.ingredients
  let instructions := if !r.instructions.isArr then JVal.jarr [] else r.instructions
  let name :=
    match r.name with
    | none => some "Untitled Recipe"
    | some s =>
        if s = "" || jsTrim s.data = [] then some "Untitled Recipe" else some s
  let servings :=
    if truthy r.servings && r.servings.isStr then
      match r.servings with
      | .jstr s =>
          match firstDigitRun s.data with
          | some run => JVal.jnum (digitsToNat run : Int)
          | none => JVal.jundef
      | v => v
    else r.servings
  let prepTime :=
    if truthy r.prepTime && !r.prepTime.isStr then JVal.jstr (jsStringOf r.prepTime)
    else r.prepTime
  let cookTime :=
    if truthy r.cookTime && !r.cookTime.isStr then JVal.jstr (jsStringOf r.cookTime)
    else r.cookTime
  ⟨name, ingredients, instructions, servings, prepTime, cookTime⟩

/-- The raw `workout` block; only the field the transformation reads is
modelled. -/
structure RawWorkout where
  name : Option String
deriving DecidableEq, Repr

/-- The raw `tutorial` block; only the field the transformation reads is
modelled. -/
structure RawTutorial where
  title : Option String
deriving DecidableEq, Repr

/-- The parsed JSON payload of one video-model response
(fields of interest of `result`). -/
structure VideoRaw where
  title : Option String
  type : Option String
  category : Option String
  summary : Option String
  recipe : Option RawRecipe
  workout : Option RawWorkout
  tutorial : Option RawTutorial
deriving DecidableEq, Repr

/-- `VideoStructuredContent`: the tagged content block of the result. -/
structure VideoStructuredContent where
  type : String
  recipe : Option RawRecipe
  workout : Option RawWorkout
  tutorial : Option RawTutorial
deriving DecidableEq, Repr

/-- `VideoAIAnalysis`: the transformation's result shape. -/
structure VideoAIAnalysis where
  title : String
  category : String
  summary : String
  structuredContent : VideoStructuredContent
deriving DecidableEq, Repr

/-- The provenance label embedded in the video user prompt: a transcript is
labelled as caption-sourced exactly when it is non-empty and contains
neither `WEBVTT` nor `-->`. -/
def transcriptSource (transcript : String) : String :=
  let isFromCaptions :=
    !jsIncludes transcript.data "WEBVTT".data &&
      !jsIncludes transcript.data "-->".data && 0 < transcript.data.length
  if isFromCaptions then "captions/subtitles (high quality)"
  else "audio transcription"

/-- Title normalization of the video pipeline: trim, strip `#`/`@` markers,
collapse whitespace, truncate to 60 characters, then Title-Case every
space-delimited token. -/
def normTitleL (l : List Char) : List Char :=
  titleCase
    ((collapseWs ((jsTrim l).filter (fun c => !(c == '#' || c == '@')))).take 60)

/-- String-level wrapper of `normTitleL`. -/
def normalizeVideoTitle (s : String) : String := ⟨normTitleL s.data⟩

/-- The success branch of `transformVideoContent`: repair the recipe block,
assemble the structured content, derive and normalize the title, and cap the
summary. -/
def buildVideoAnalysis (transcript : String) (r : VideoRaw) : VideoAIAnalysis :=
  let recipeData := r.recipe.map repairRecipe
  let structuredContent : VideoStructuredContent :=
    ⟨(match r.type with
      | some t => if t ≠ "" then t else "general"
      | none => "general"),
     recipeData, r.workout, r.tutorial⟩
  let title0 := r.title.getD ""
  let title1 : List Char :=
    if title0 = "" || jsTrim title0.data = [] then
      if optTruthy (recipeData.bind (·.name)) then
        ((recipeData.bind (·.name)).getD "").data
      else if optTruthy (r.workout.bind (·.name)) then
        ((r.workout.bind (·.name)).getD "").data
      else if optTruthy (r.tutorial.bind (·.title)) then
        ((r.tutorial.bind (·.title)).getD "").data
      else
        let fallbackTitle :=
          if optTruthy r.summary then (r.summary.getD "").data
          else transcript.data.take 50
        jsTrim (beforeFirst '.' fallbackTitle)
    else title0.data
  let title2 := normTitleL title1
  let title := if title2 = [] then "Video".data else title2
  let category := if optTruthy r.category then r.category.getD "" else "General"
  let summaryRaw :=
    if optTruthy r.summary then (r.summary.getD "").data
    else transcript.data.take 200
  let summary :=
    if 200 < summaryRaw.length then summaryRaw.take 197 ++ "...".data
    else summaryRaw
  ⟨⟨title⟩, category, ⟨summary⟩, structuredContent⟩

/-- The terminal fallback title: the trimmed text before the first period in
the first 50 transcript characters, or `"Video"` when that is empty. -/
def videoFallbackTitle (transcript : String) : String :=
  let t := jsTrim (beforeFirst '.' (transcript.data.take 50))
  ⟨(if t = [] then "Video".data else t).take 60⟩

/-- The terminal fallback payload of `transformVideoContent`. -/
def videoFallback (transcript : String) : VideoAIAnalysis :=
  ⟨videoFallbackTitle transcript, "General", ⟨transcript.data.take 200⟩,
   ⟨"general", none, none, none⟩⟩

/-- `transformVideoContent`, abstracted over the chat client `call` (which
covers the API call plus JSON parsing/salvage of one attempt). Returns the
analysis together with the models actually called; the URL only feeds the
prompt and does not affect the result. -/
def transformVideoContent (transcript url : String)
    (call : String → Except AIError VideoRaw) : VideoAIAnalysis × List String :=
  match runModelLoop call modelList with
  | (some r, tried) => (buildVideoAnalysis transcript r, tried)
  | (none, tried) => (videoFallback transcript, tried)

/-! ## Embedding of the video pipeline entry points (`videoProcessor`) -/

/-- `VideoPlatform`. -/
structure VideoPlatform where
  type : String
  supported : Bool
deriving DecidableEq, Repr

/-- `detectVideoPlatform`: case-insensitive URL pattern matching for TikTok,
Instagram Reels and YouTube. -/
def detectVideoPlatform (url : String) : VideoPlatform :=
  let u := jsLower url.data
  if jsIncludes u "tiktok.com".data || jsIncludes u "vm.tiktok.com".data then
    ⟨"tiktok", true⟩
  else if jsIncludes u "instagram.com".data &&
      (jsIncludes u "/reel/".data || jsIncludes u "/reels/".data) then
    ⟨"instagram", true⟩
  else if jsIncludes u "youtube.com".data || jsIncludes u "youtu.be".data then
    if jsIncludes u "/shorts/".data ||
        jsIncludes u "youtube.com/shorts/".data then ⟨"youtube", true⟩
    else ⟨"youtube", true⟩
  else ⟨"youtube", false⟩

/-- `processVideo`, abstracted over its two collaborators: `captions` is the
outcome of `extractCaptions` (`none` = no captions) and `audioPath` is the
outcome of the audio-extraction-plus-transcription fallback. A caption
result is returned only when truthy and longer than 50 characters; otherwise
the audio path decides the outcome. -/
def processVideo (url : String) (captions : Option String)
    (audioPath : Except String String) : Except String String :=
  if !(detectVideoPlatform url).supported then
    .error ("Unsupported video platform: " ++ url)
  else
    match captions with
    | some c => if c ≠ "" && 50 < c.length then .ok c else audioPath
    | none => audioPath

/-! ## Embedding of the in-memory store (`storage.ts`) -/

/-- The `videoData` block of an item. -/
structure VideoData where
  platform : String
  transcript : Option String
  structuredContent : Option VideoStructuredContent
deriving DecidableEq, Repr

/-- An `Item` record; `createdAt` models the `Date` as a timestamp. -/
structure Item where
  id : String
  userId : String
  type : String
  title : String
  summary : String
  category : String
  tags : List String
  createdAt : Nat
  userNotes : Option String
  url : Option String
  imageUrl : Option String
  content : Option String
  videoData : Option VideoData
deriving DecidableEq, Repr

/-- A `Partial<Item>` updates argument: every field optionally provided. -/
structure ItemUpdates where
  id : Option String
  userId : Option String
  type : Option String
  title : Option String
  summary : Option String
  category : Option String
  tags : Option (List String)
  createdAt : Option Nat
  userNotes : Option (Option String)
  url : Option (Option String)
  imageUrl : Option (Option String)
  content : Option (Option String)
  videoData : Option (Option VideoData)
deriving DecidableEq, Repr

/-- The merge `{...item, ...updates}` followed by forcing `id`, `userId`
and `createdAt` back to the stored item's values. -/
def applyUpdates (item : Item) (u : ItemUpdates) : Item :=
  let merged : Item :=
    ⟨u.id.getD item.id, u.userId.getD item.userId, u.type.getD item.type,
     u.title.getD item.title, u.summary.getD item.summary,
     u.category.getD item.category, u.tags.getD item.tags,
     u.createdAt.getD item.createdAt, u.userNotes.getD item.userNotes,
     u.url.getD item.url, u.imageUrl.getD item.imageUrl,
     u.content.getD item.content, u.videoData.getD item.videoData⟩
  { merged with
      id := item.id, userId := item.userId, createdAt := item.createdAt }

/-- The items map of `MemStorage`, as an association list keyed by item id. -/
structure MemStorage where
  items : List (String × Item)
deriving DecidableEq, Repr

/-- `Map.get`. -/
def mapGet (m : List (String × Item)) (k : String) : Option Item :=
  (m.find? (fun p => p.1 == k)).map (·.2)

/-- `Map.set`: replace the binding of an existing key, else append. -/
def mapSet (m : List (String × Item)) (k : String) (v : Item) :
    List (String × Item) :=
  if (m.find? (fun p => p.1 == k)).isSome then
    m.map (fun p => if p.1 == k then (k, v) else p)
  else m ++ [(k, v)]

/-- `Map.delete`. -/
def mapDel (m : List (String × Item)) (k : String) : List (String × Item) :=
  m.filter (fun p => p.1 != k)

/-- `MemStorage.getItemById`. -/
def getItemById (st : MemStorage) (id userId : String) : Option Item :=
  match mapGet st.items id with
  | none => none
  | some item => if item.userId ≠ userId then none else some item

/-- `MemStorage.updateItem`: returns the updated item (or `null`) together
with the resulting store. -/
def updateItem (st : MemStorage) (id userId : String) (u : ItemUpdates) :
    Option Item × MemStorage :=
  match mapGet st.items id with
  | none => (none, st)
  | some item =>
      if item.userId ≠ userId then (none, st)
      else
        let updated := applyUpdates item u
        (some updated, ⟨mapSet st.items id updated⟩)

/-- `MemStorage.deleteItem`: returns the success flag together with the
resulting store. -/
def deleteItem (st : MemStorage) (id userId : String) : Bool × MemStorage :=
  match mapGet st.items id with
  | none => (false, st)
  | some item =>
      if item.userId ≠ userId then (false, st)
      else (true, ⟨mapDel st.items id⟩)

/-- Is this character a space? (the space skeleton of a string). -/
def spB (c : Char) : Bool := c == ' '

/-- Adjacent characters are not both spaces. -/
def spR (a b : Char) : Prop := ¬(a = ' ' ∧ b = ' ')

/-! ## Sample data for concrete instantiations -/

/-- A model-class error: message mentions "model", status 404,
code `model_not_found`. -/
def modelNotFoundErr : AIError := ⟨"model not found", some 404, some "model_not_found"⟩

/-- A non-model-class error (e.g. a rate limit). -/
def rateLimitErr : AIError := ⟨"rate limit exceeded", some 429, none⟩

/-- A chat client whose every call fails with a model-class error. -/
def failAllCall : String → Except AIError VideoRaw := fun _ => .error modelNotFoundErr

/-- A video chat client whose every call fails with a non-model-class error. -/
def abortCallV : String → Except AIError VideoRaw := fun _ => .error rateLimitErr

/-- A generic chat client whose every call fails with a non-model-class
error. -/
def abortCallG : String → Except AIError GenRaw := fun _ => .error rateLimitErr

/-- A sample stored item owned by user `u1`. -/
def sampleItem : Item :=
  ⟨"i1", "u1", "note", "T", "S", "General", [], 100, none, none, none, none, none⟩

/-- A sample store holding `sampleItem` under key `i1`. -/
def sampleStore : MemStorage := ⟨[("i1", sampleItem)]⟩

/-- A sample updates argument that tries to overwrite the protected fields. -/
def sampleUpdates : ItemUpdates :=
  ⟨some "other-id", some "u2", none, some "New", none, none, none, some 999,
   none, none, none, none, none⟩

/-- A raw recipe block exercising the repair rules (blank name, string
ingredients, textual servings, numeric prep time). -/
def sampleRecipeRaw : RawRecipe :=
  ⟨some "  ", JVal.jstr "2 cups flour", JVal.jnull, JVal.jstr "serves 4 people",
   JVal.jnum 10, JVal.jnull⟩

/-- A raw recipe block with an empty-string servings and a numeric-zero prep
time, the edge cases the repair skips. -/
def cexRecipeRaw : RawRecipe :=
  ⟨some "Cake", JVal.jarr ["flour"], JVal.jarr ["mix"], JVal.jstr "",
   JVal.jnum 0, JVal.jstr "30 min"⟩

/-! ## Theorems -/

/-- C8: for every URL string matching none of the three supported host
patterns (TikTok, Instagram Reels, YouTube), `detectVideoPlatform` returns
`supported = false` with the default type `youtube`; and on every input it
returns one of the four possible platform values (it is total — no input
can raise). -/
theorem detectVideoPlatform_default (url : String) :
    (((jsIncludes (jsLower url.data) "tiktok.com".data ||
        jsIncludes (jsLower url.data) "vm.tiktok.com".data) = false) →
     ((jsIncludes (jsLower url.data) "instagram.com".data &&
        (jsIncludes (jsLower url.data) "/reel/".data ||
         jsIncludes (jsLower url.data) "/reels/".data)) = false) →
     ((jsIncludes (jsLower url.data) "youtube.com".data ||
        jsIncludes (jsLower url.data) "youtu.be".data) = false) →
     detectVideoPlatform url = ⟨"youtube", false⟩) ∧
    ((detectVideoPlatform url).supported = true ∨
      detectVideoPlatform url = ⟨"youtube", false⟩) := by
  constructor
  · intro h1 h2 h3
    simp only [detectVideoPlatform, h1, h2, h3, Bool.false_eq_true, if_false]
  · simp only [detectVideoPlatform]
    split
    · exact Or.inl rfl
    · split
      · exact Or.inl rfl
      · split
        · split <;> exact Or.inl rfl
        · exact Or.inr rfl

/-- Witness for C8 at a concrete unsupported URL. -/
theorem detectVideoPlatform_default_witness :
    detectVideoPlatform "https://example.com/watch" = ⟨"youtube", false⟩ :=
  (detectVideoPlatform_default "https://example.com/watch").1
    (by decide) (by decide) (by decide)

/-- C9: the provenance label is `captions/subtitles (high quality)` exactly
when the transcript is non-empty and contains neither `WEBVTT` nor `-->`;
in every other case it is `audio transcription`. -/
theorem transcriptSource_label (t : String) :
    (transcriptSource t = "captions/subtitles (high quality)" ↔
      (jsIncludes t.data "WEBVTT".data = false ∧
       jsIncludes t.data "-->".data = false ∧ t.data ≠ [])) ∧
    (transcriptSource t = "captions/subtitles (high quality)" ∨
      transcriptSource t = "audio transcription") := by
  have hne : (0 < t.data.length) ↔ t.data ≠ [] := List.length_pos
  by_cases h1 : jsIncludes t.data "WEBVTT".data <;>
    by_cases h2 : jsIncludes t.data "-->".data <;>
    by_cases h3 : t.data = [] <;>
    simp_all [transcriptSource]

/-- C3: on a supported URL, `processVideo` never returns a caption result of
length at most 50 (or a missing caption result): in those cases the outcome
is exactly the audio-extraction-and-transcription path's outcome, and a
caption-sourced transcript is returned only when strictly longer than 50
characters. -/
theorem processVideo_short_captions (url : String) (captions : Option String)
    (audioPath : Except String String)
    (hsup : (detectVideoPlatform url).supported = true) :
    (∀ c, captions = some c → c.length ≤ 50 →
      processVideo url captions audioPath = audioPath) ∧
    (captions = none → processVideo url captions audioPath = audioPath) ∧
    (∀ c, captions = some c → 50 < c.length →
      processVideo url captions audioPath = .ok c) := by
  refine ⟨?_, ?_, ?_⟩
  · intro c hc hlen
    subst hc
    simp [processVideo, hsup, Nat.not_lt.mpr hlen]
  · intro hc
    subst hc
    simp [processVideo, hsup]
  · intro c hc hlen
    subst hc
    have hne : c ≠ "" := by
      intro h
      rw [h] at hlen
      exact absurd hlen (by decide)
    simp [processVideo, hsup, hne, hlen]

/-- Witness for C3: a 10-character caption is not returned; a 60-character
caption is. -/
theorem processVideo_short_captions_witness :
    processVideo "https://vm.tiktok.com/x" (some "short text")
      (.ok "the audio transcript") = .ok "the audio transcript" :=
  (processVideo_short_captions "https://vm.tiktok.com/x" (some "short text")
      (.ok "the audio transcript") (by decide)).1 "short text" rfl (by decide)

/-- Every fixed category name has at least two characters. -/
theorem fixed_cat_len : ∀ f ∈ FIXED_CATEGORIES, 2 ≤ f.data.length := by decide

/-- C10: the in-memory store enforces per-user ownership: when the stored
item's owner differs from the caller, `getItemById` returns `none`,
`updateItem` and `deleteItem` fail and leave the store unchanged; when
`updateItem` succeeds, the updated item keeps the stored `id`, `userId` and
`createdAt` regardless of the updates argument. -/
theorem memStorage_ownership (st : MemStorage) (id userId : String)
    (u : ItemUpdates) (item : Item) (hit : mapGet st.items id = some item) :
    (item.userId ≠ userId →
      getItemById st id userId = none ∧
      updateItem st id userId u = (none, st) ∧
      deleteItem st id userId = (false, st)) ∧
    (item.userId = userId →
      updateItem st id userId u =
        (some (applyUpdates item u), ⟨mapSet st.items id (applyUpdates item u)⟩) ∧
      (applyUpdates item u).id = item.id ∧
      (applyUpdates item u).userId = item.userId ∧
      (applyUpdates item u).createdAt = item.createdAt) := by
  constructor
  · intro hne
    refine ⟨?_, ?_, ?_⟩ <;>
      simp [getItemById, updateItem, deleteItem, hit, hne]
  · intro heq
    refine ⟨?_, rfl, rfl, rfl⟩
    simp [updateItem, hit, heq]

/-- Witness for C10: a concrete store where user `u2` cannot read, update or
delete user `u1`'s item. -/
theorem memStorage_ownership_witness :
    getItemById sampleStore "i1" "u2" = none ∧
    updateItem sampleStore "i1" "u2" sampleUpdates = (none, sampleStore) ∧
    deleteItem sampleStore "i1" "u2" = (false, sampleStore) :=
  (memStorage_ownership sampleStore "i1" "u2" sampleUpdates sampleItem
    (by decide)).1 (by decide)

/-- C7: `validateCategory` maps "technology", "TECHNOLOGY" and
" Technology " to the canonical "Technology", and returns "General" for
every input that is empty or whose cleaned form is shorter than 2
characters. -/
theorem validateCategory_canonical :
    validateCategory "technology" = "Technology" ∧
    validateCategory "TECHNOLOGY" = "Technology" ∧
    validateCategory " Technology " = "Technology" ∧
    ∀ c : String, (c = "" ∨ (categoryCleaned c.data).length < 2) →
      validateCategory c = "General" := by
  refine ⟨by decide, by decide, by decide, ?_⟩
  intro c hc
  rcases hc with hc | hc
  · subst hc; decide
  · show (⟨validateCategoryL c.data⟩ : String) = "General"
    have hbody : validateCategoryL c.data = "General".data := by
      unfold validateCategoryL
      have hfind : FIXED_CATEGORIES.find?
          (fun f => jsLower f.data == jsLower (categoryCleaned c.data)) = none := by
        rw [List.find?_eq_none]
        intro f hf hbeq
        have heq : jsLower f.data = jsLower (categoryCleaned c.data) :=
          by simpa using hbeq
        have h1 : f.data.length = (categoryCleaned c.data).length := by
          have := congrArg List.length heq
          simpa [jsLower] using this
        have h2 := fixed_cat_len f hf
        omega
      rw [hfind]
      by_cases hz : c.data = [] <;> simp [hz, hc]
    rw [hbody]

/-- Witness for C7: the input "!" cleans to an empty category and maps to
"General". -/
theorem validateCategory_canonical_witness :
    (categoryCleaned "!".data).length < 2 ∧ validateCategory "!" = "General" :=
  ⟨by decide, validateCategory_canonical.2.2.2 "!" (Or.inr (by decide))⟩

/-- C6 counterexample: an empty-string `servings` is falsy, so the repair
leaves it in place (the claim says a digit-free string is removed), and a
numeric `0` prep time is falsy, so it is not coerced to a string (the claim
says every present non-string is coerced). -/
theorem repairRecipe_counterexample :
    (repairRecipe cexRecipeRaw).servings = JVal.jstr "" ∧
    (repairRecipe cexRecipeRaw).prepTime = JVal.jnum 0 := by decide

/-- C6 (amended): the repair coerces non-array ingredients/instructions to
`[]`, defaults a missing or blank name to "Untitled Recipe", parses the
digit run of a non-empty string `servings` (removing the field when a
non-empty string has no digits, while an empty string is left unchanged),
and stringifies `prepTime`/`cookTime` exactly when they are present, truthy
and not strings. -/
theorem repairRecipe_repairs (r : RawRecipe) :
    (r.ingredients.isArr = false → (repairRecipe r).ingredients = JVal.jarr []) ∧
    (r.instructions.isArr = false → (repairRecipe r).instructions = JVal.jarr []) ∧
    ((r.name = none ∨ ∃ s, r.name = some s ∧ jsTrim s.data = []) →
      (repairRecipe r).name = some "Untitled Recipe") ∧
    (∀ s run, r.servings = JVal.jstr s → s ≠ "" →
      firstDigitRun s.data = some run →
      (repairRecipe r).servings = JVal.jnum (digitsToNat run : Int)) ∧
    (∀ s, r.servings = JVal.jstr s → s ≠ "" → firstDigitRun s.data = none →
      (repairRecipe r).servings = JVal.jundef) ∧
    (truthy r.prepTime = true → r.prepTime.isStr = false →
      (repairRecipe r).prepTime = JVal.jstr (jsStringOf r.prepTime)) ∧
    (truthy r.cookTime = true → r.cookTime.isStr = false →
      (repairRecipe r).cookTime = JVal.jstr (jsStringOf r.cookTime)) := by
  refine ⟨?_, ?_, ?_, ?_, ?_, ?_, ?_⟩
  · intro h; simp [repairRecipe, h]
  · intro h; simp [repairRecipe, h]
  · intro h
    rcases h with h | ⟨s, hs, htrim⟩
    · simp [repairRecipe, h]
    · simp [repairRecipe, hs, htrim]
  · intro s run hs hne hrun
    simp [repairRecipe, hs, hne, hrun, truthy, JVal.isStr]
  · intro s hs hne hrun
    simp [repairRecipe, hs, hne, hrun, truthy, JVal.isStr]
  · intro ht hstr; simp [repairRecipe, ht, hstr]
  · intro ht hstr; simp [repairRecipe, ht, hstr]

/-- Witness for C6: a blank name is defaulted, string ingredients become
`[]`, "serves 4 people" becomes `4`, and a numeric prep time becomes the
string "10". -/
theorem repairRecipe_repairs_witness :
    (repairRecipe sampleRecipeRaw).ingredients = JVal.jarr [] ∧
    (repairRecipe sampleRecipeRaw).name = some "Untitled Recipe" ∧
    (repairRecipe sampleRecipeRaw).servings = JVal.jnum 4 ∧
    (repairRecipe sampleRecipeRaw).prepTime = JVal.jstr "10" :=
  ⟨(repairRecipe_repairs sampleRecipeRaw).1 (by decide),
   (repairRecipe_repairs sampleRecipeRaw).2.2.1
     (Or.inr ⟨"  ", rfl, by decide⟩),
   (repairRecipe_repairs sampleRecipeRaw).2.2.2.1 "serves 4 people" ['4']
     rfl (by decide) (by decide),
   (repairRecipe_repairs sampleRecipeRaw).2.2.2.2.2.1 (by decide) (by decide)⟩

/-- When every model in the list fails with a model-class error, the loop
exhausts the list, calling every model and producing no payload. -/
theorem runModelLoop_all_fail {α : Type} (call : String → Except AIError α)
    (ms : List String)
    (h : ∀ m ∈ ms, ∃ e, call m = .error e ∧ isModelClassError e = true) :
    runModelLoop call ms = (none, ms) := by
  induction ms with
  | nil => rfl
  | cons m rest ih =>
      obtain ⟨e, he, hm⟩ := h m (List.mem_cons_self m rest)
      have ih' := ih (fun m' hm' => h m' (List.mem_cons_of_mem m hm'))
      simp [runModelLoop, he, hm, ih']

/-- When the models of `ms1` all fail with model-class errors and the next
model `m` fails with a non-model-class error, the loop stops at `m`: the
models after it are never called. -/
theorem runModelLoop_abort {α : Type} (call : String → Except AIError α)
    (ms1 : List String) (m : String) (ms2 : List String) (e : AIError)
    (h1 : ∀ m' ∈ ms1, ∃ e', call m' = .error e' ∧ isModelClassError e' = true)
    (h2 : call m = .error e) (h3 : isModelClassError e = false) :
    runModelLoop call (ms1 ++ m :: ms2) = (none, ms1 ++ [m]) := by
  induction ms1 with
  | nil => simp [runModelLoop, h2, h3]
  | cons m' rest ih =>
      obtain ⟨e', he', hm'⟩ := h1 m' (List.mem_cons_self m' rest)
      have ih' := ih (fun x hx => h1 x (List.mem_cons_of_mem m' hx))
      simp [runModelLoop, he', hm', ih']

/-- C1: when every model in the fallback list fails with a model-class
error, `transformVideoContent` returns (rather than raising) the terminal
fallback payload: type "general", category "General", summary = the first
200 transcript characters, and title = the trimmed text before the first
period in the first 50 transcript characters, or "Video" when that is
empty. -/
theorem transformVideoContent_terminal_fallback (transcript url : String)
    (call : String → Except AIError VideoRaw)
    (h : ∀ m ∈ modelList, ∃ e, call m = .error e ∧ isModelClassError e = true) :
    (transformVideoContent transcript url call).1 = videoFallback transcript ∧
    (transformVideoContent transcript url call).1.structuredContent.type
      = "general" ∧
    (transformVideoContent transcript url call).1.structuredContent.recipe
      = none ∧
    (transformVideoContent transcript url call).1.category = "General" ∧
    (transformVideoContent transcript url call).1.summary
      = ⟨transcript.data.take 200⟩ ∧
    (transformVideoContent transcript url call).1.title
      = (if jsTrim (beforeFirst '.' (transcript.data.take 50)) = [] then "Video"
         else ⟨jsTrim (beforeFirst '.' (transcript.data.take 50))⟩) := by
  have hloop := runModelLoop_all_fail call modelList h
  have hmain : (transformVideoContent transcript url call).1
      = videoFallback transcript := by
    simp [transformVideoContent, hloop]
  have htitle : videoFallbackTitle transcript
      = (if jsTrim (beforeFirst '.' (transcript.data.take 50)) = [] then "Video"
         else ⟨jsTrim (beforeFirst '.' (transcript.data.take 50))⟩) := by
    show (⟨(if jsTrim (beforeFirst '.' (transcript.data.take 50)) = []
            then "Video".data
            else jsTrim (beforeFirst '.' (transcript.data.take 50))).take 60⟩
          : String) = _
    have hlen : (jsTrim (beforeFirst '.' (transcript.data.take 50))).length ≤ 50 := by
      have h1 : (beforeFirst '.' (transcript.data.take 50)).length
          ≤ (transcript.data.take 50).length :=
        (List.takeWhile_sublist _).length_le
      have h2 : (jsTrim (beforeFirst '.' (transcript.data.take 50))).length
          ≤ (beforeFirst '.' (transcript.data.take 50)).length := by
        unfold jsTrim
        simp only [List.length_reverse]
        calc ((((beforeFirst '.' (transcript.data.take 50)).dropWhile
                isWs).reverse.dropWhile isWs)).length
            ≤ ((beforeFirst '.' (transcript.data.take 50)).dropWhile
                isWs).reverse.length := (List.dropWhile_sublist _).length_le
          _ ≤ _ := by
              simp only [List.length_reverse]
              exact (List.dropWhile_sublist _).length_le
      have h3 : (transcript.data.take 50).length ≤ 50 := by
        simp [List.length_take]
      omega
    by_cases hz : jsTrim (beforeFirst '.' (transcript.data.take 50)) = []
    · rw [if_pos hz, if_pos hz]; decide
    · rw [if_neg hz, if_neg hz]
      congr 1
      exact List.take_of_length_le (le_trans hlen (by omega))
  rw [hmain]
  exact ⟨rfl, rfl, rfl, rfl, rfl, htitle⟩

/-- Witness for C1: a concrete transcript with a client whose every call
fails with a model-not-found error yields the terminal fallback. -/
theorem transformVideoContent_terminal_fallback_witness :
    (transformVideoContent "Preheat oven to 350F. Mix flour." "u" failAllCall).1
      = videoFallback "Preheat oven to 350F. Mix flour." :=
  (transformVideoContent_terminal_fallback "Preheat oven to 350F. Mix flour."
    "u" failAllCall
    (fun m _ => ⟨modelNotFoundErr, rfl, by decide⟩)).1

/-- C2: a non-model-class failure aborts the model-fallback loop: no model
after the failing one is ever called, and the function falls through to the
terminal fallback; in particular, when it happens on the first attempt,
exactly one chat-completion call is made — in the generic analyzer and in
the video transformation alike. -/
theorem nonModelError_single_call (e : AIError)
    (he : isModelClassError e = false) :
    (∀ (α : Type) (call : String → Except AIError α) (ms1 : List String)
       (m : String) (ms2 : List String),
       (∀ m' ∈ ms1, ∃ e', call m' = .error e' ∧ isModelClassError e' = true) →
       call m = .error e →
       runModelLoop call (ms1 ++ m :: ms2) = (none, ms1 ++ [m])) ∧
    (∀ (call : String → Except AIError GenRaw) (title : String)
       (content : Option String),
       call "gpt-4o-mini" = .error e →
       analyzeContent title content call
         = (fallbackAnalysis title content, ["gpt-4o-mini"])) ∧
    (∀ (callV : String → Except AIError VideoRaw) (transcript url : String),
       callV "gpt-4o-mini" = .error e →
       transformVideoContent transcript url callV
         = (videoFallback transcript, ["gpt-4o-mini"])) := by
  refine ⟨?_, ?_, ?_⟩
  · intro α call ms1 m ms2 h1 h2
    exact runModelLoop_abort call ms1 m ms2 e h1 h2 he
  · intro call title content h2
    have hl : runModelLoop call modelList = (none, ["gpt-4o-mini"]) := by
      have := runModelLoop_abort call [] "gpt-4o-mini"
        ["gpt-4-turbo", "gpt-3.5-turbo"] e (by simp) h2 he
      simpa [modelList] using this
    simp [analyzeContent, hl]
  · intro callV transcript url h2
    have hl : runModelLoop callV modelList = (none, ["gpt-4o-mini"]) := by
      have := runModelLoop_abort callV [] "gpt-4o-mini"
        ["gpt-4-turbo", "gpt-3.5-turbo"] e (by simp) h2 he
      simpa [modelList] using this
    simp [transformVideoContent, hl]

/-- Witness for C2: a rate-limit error on the first attempt stops both
loops after exactly one call. -/
theorem nonModelError_single_call_witness :
    analyzeContent "My Title" (some "some content") abortCallG
      = (fallbackAnalysis "My Title" (some "some content"), ["gpt-4o-mini"]) ∧
    transformVideoContent "a transcript" "u" abortCallV
      = (videoFallback "a transcript", ["gpt-4o-mini"]) :=
  ⟨(nonModelError_single_call rateLimitErr (by decide)).2.1 abortCallG
     "My Title" (some "some content") rfl,
   (nonModelError_single_call rateLimitErr (by decide)).2.2 abortCallV
     "a transcript" "u" rfl⟩

/-- Trimming never lengthens a string. -/
theorem jsTrim_length_le (l : List Char) : (jsTrim l).length ≤ l.length := by
  unfold jsTrim
  simp only [List.length_reverse]
  calc ((l.dropWhile isWs).reverse.dropWhile isWs).length
      ≤ (l.dropWhile isWs).reverse.length := (List.dropWhile_sublist _).length_le
    _ ≤ l.length := by
        simp only [List.length_reverse]
        exact (List.dropWhile_sublist _).length_le

/-- The accumulator form of `lastIndexOf` stays below `i + cs.length`. -/
theorem lastIndexOfAux_lt (c : Char) (cs : List Char) :
    ∀ (i best : Int), best < i → lastIndexOfAux c cs i best < i + cs.length := by
  induction cs with
  | nil =>
      intro i best h
      simpa [lastIndexOfAux] using h
  | cons x rest ih =>
      intro i best h
      have h' : (if x == c then i else best) < i + 1 := by split <;> omega
      have := ih (i + 1) (if x == c then i else best) h'
      simp only [lastIndexOfAux, List.length_cons]
      push_cast
      push_cast at this
      omega

/-- A `lastIndexOf` result is below the list length. -/
theorem jsLastIndexOf_lt (l : List Char) (c : Char) :
    jsLastIndexOf l c < (l.length : Int) := by
  have := lastIndexOfAux_lt c l 0 (-1) (by omega)
  simpa [jsLastIndexOf] using this

/-- The capped summary never exceeds 203 characters. -/
theorem capSummary_length (l : List Char) : (capSummary l).length ≤ 203 := by
  unfold capSummary
  by_cases h : 200 < l.length
  · rw [if_pos h]
    have htr : (l.take 200).length = 200 := by
      simp only [List.length_take]
      omega
    have hse : lastSentenceEnd l < 200 := by
      have hp := jsLastIndexOf_lt (l.take 200) '.'
      have he := jsLastIndexOf_lt (l.take 200) '!'
      have hq := jsLastIndexOf_lt (l.take 200) '?'
      rw [htr] at hp he hq
      unfold lastSentenceEnd
      push_cast at hp he hq
      omega
    have hsp : jsLastIndexOf (l.take 200) ' ' < 200 := by
      have := jsLastIndexOf_lt (l.take 200) ' '
      rw [htr] at this
      push_cast at this
      omega
    by_cases h1 : 50 < lastSentenceEnd l
    · rw [if_pos h1]
      have hn : (lastSentenceEnd l + 1).toNat ≤ 200 := by omega
      have := List.length_take (lastSentenceEnd l + 1).toNat l
      omega
    · rw [if_neg h1]
      by_cases h2 : 50 < jsLastIndexOf (l.take 200) ' '
      · rw [if_pos h2]
        have hn : (jsLastIndexOf (l.take 200) ' ').toNat ≤ 199 := by omega
        have h3 := List.length_take (jsLastIndexOf (l.take 200) ' ').toNat l
        simp [List.length_append]
        omega
      · rw [if_neg h2]
        simp [List.length_append]
  · rw [if_neg h]
    omega

set_option maxRecDepth 10000 in
/-- C4 counterexample: with a blank summary, a null content and the title
"Hello", `validateSummary` returns the title itself, so the output equals
the title case-insensitively; and on a 201-character space-free summary the
output is 203 characters long, exceeding 200. -/
theorem validateSummary_counterexample :
    validateSummary "" "Hello" none = "Hello" ∧
    jsLower (validateSummary "" "Hello" none).data = jsLower "Hello".data ∧
    (validateSummary (String.mk (List.replicate 201 'a')) "t" none).length
      = 203 := by
  refine ⟨by decide, by decide, by decide⟩

/-- C4 (amended): for every summary, title and content, the output of
`validateSummary` is at most 203 characters long (200 plus a possibly
appended 3-character ellipsis); the output is not guaranteed to differ from
the title, since a blank summary with null content falls back to the title
itself. -/
theorem validateSummary_length_bound (s t : String) (c : Option String) :
    (validateSummary s t c).length ≤ 203 := by
  show (validateSummaryL s.data t.data (c.map String.data)).length ≤ 203
  unfold validateSummaryL
  split
  · unfold summaryEarly
    split
    · show noSummary.length ≤ 203
      decide
    · have h1 := jsTrim_length_le
        ((summaryTextSource t.data (c.map String.data)).take 160)
      have h2 := List.length_take 160 (summaryTextSource t.data (c.map String.data))
      omega
  · split
    · show noSummary.length ≤ 203
      decide
    · exact capSummary_length _

/-- `lowCh` either fixes a character or maps it to a table value. -/
theorem lowCh_cases (c : Char) :
    lowCh c = c ∨ ∃ p ∈ lowerPairs, lowCh c = p.2 := by
  cases h : lowerPairs.find? (fun p => p.1 == c) with
  | none => exact Or.inl (by simp [lowCh, h])
  | some p =>
      exact Or.inr ⟨p, List.mem_of_find?_eq_some h, by simp [lowCh, h]⟩

/-- `upCh` either fixes a character or maps it to a table value. -/
theorem upCh_cases (c : Char) :
    upCh c = c ∨ ∃ p ∈ upperPairs, upCh c = p.2 := by
  cases h : upperPairs.find? (fun p => p.1 == c) with
  | none => exact Or.inl (by simp [upCh, h])
  | some p =>
      exact Or.inr ⟨p, List.mem_of_find?_eq_some h, by simp [upCh, h]⟩

/-- Facts about the lowercase table values. -/
theorem lowerPairs_vals : ∀ p ∈ lowerPairs,
    isWs p.2 = false ∧ p.2 ≠ ' ' ∧ (p.2 == '#' || p.2 == '@') = false ∧
    lowCh p.2 = p.2 := by decide

/-- Facts about the uppercase table values. -/
theorem upperPairs_vals : ∀ p ∈ upperPairs,
    isWs p.2 = false ∧ p.2 ≠ ' ' ∧ (p.2 == '#' || p.2 == '@') = false ∧
    upCh p.2 = p.2 := by decide

/-- Lowercasing is idempotent. -/
theorem lowCh_lowCh (c : Char) : lowCh (lowCh c) = lowCh c := by
  rcases lowCh_cases c with h | ⟨p, hp, h⟩
  · rw [h, h]
  · rw [h]
    exact (lowerPairs_vals p hp).2.2.2

/-- Uppercasing is idempotent. -/
theorem upCh_upCh (c : Char) : upCh (upCh c) = upCh c := by
  rcases upCh_cases c with h | ⟨p, hp, h⟩
  · rw [h, h]
  · rw [h]
    exact (upperPairs_vals p hp).2.2.2

/-- Uppercasing maps only the space to a space. -/
theorem upCh_space_iff (c : Char) : upCh c = ' ' ↔ c = ' ' := by
  constructor
  · intro h
    rcases upCh_cases c with h2 | ⟨p, hp, h2⟩
    · rw [← h2]; exact h
    · exact absurd (h2 ▸ h) (upperPairs_vals p hp).2.1
  · intro h; subst h; decide

/-- Lowercasing maps only the space to a space. -/
theorem lowCh_space_iff (c : Char) : lowCh c = ' ' ↔ c = ' ' := by
  constructor
  · intro h
    rcases lowCh_cases c with h2 | ⟨p, hp, h2⟩
    · rw [← h2]; exact h
    · exact absurd (h2 ▸ h) (lowerPairs_vals p hp).2.1
  · intro h; subst h; decide

/-- If whitespace in the source means a space, an uppercased whitespace
character is a space. -/
theorem upCh_ws_space (c : Char) (h : isWs c = true → c = ' ')
    (hws : isWs (upCh c) = true) : upCh c = ' ' := by
  rcases upCh_cases c with h2 | ⟨p, hp, h2⟩
  · rw [h2] at hws ⊢
    exact h hws
  · exact absurd (h2 ▸ hws) (by simp [(upperPairs_vals p hp).1])

/-- If whitespace in the source means a space, a lowercased whitespace
character is a space. -/
theorem lowCh_ws_space (c : Char) (h : isWs c = true → c = ' ')
    (hws : isWs (lowCh c) = true) : lowCh c = ' ' := by
  rcases lowCh_cases c with h2 | ⟨p, hp, h2⟩
  · rw [h2] at hws ⊢
    exact h hws
  · exact absurd (h2 ▸ hws) (by simp [(lowerPairs_vals p hp).1])

/-- Uppercasing cannot create a `#`/`@` marker. -/
theorem upCh_notMark (c : Char) (h : (c == '#' || c == '@') = false) :
    (upCh c == '#' || upCh c == '@') = false := by
  rcases upCh_cases c with h2 | ⟨p, hp, h2⟩
  · rw [h2]; exact h
  · rw [h2]; exact (upperPairs_vals p hp).2.2.1

/-- Lowercasing cannot create a `#`/`@` marker. -/
theorem lowCh_notMark (c : Char) (h : (c == '#' || c == '@') = false) :
    (lowCh c == '#' || lowCh c == '@') = false := by
  rcases lowCh_cases c with h2 | ⟨p, hp, h2⟩
  · rw [h2]; exact h
  · rw [h2]; exact (lowerPairs_vals p hp).2.2.1

/-- Uppercasing preserves the space skeleton. -/
theorem spB_upCh (c : Char) : spB (upCh c) = spB c := by
  by_cases h : c = ' '
  · subst h; decide
  · have h2 : upCh c ≠ ' ' := fun hc => h ((upCh_space_iff c).mp hc)
    simp [spB, h, h2]

/-- Lowercasing preserves the space skeleton. -/
theorem spB_lowCh (c : Char) : spB (lowCh c) = spB c := by
  by_cases h : c = ' '
  · subst h; decide
  · have h2 : lowCh c ≠ ' ' := fun hc => h ((lowCh_space_iff c).mp hc)
    simp [spB, h, h2]

/-- `splitSp` always yields at least one piece. -/
theorem splitSp_ne_nil (l : List Char) : splitSp l ≠ [] := by
  cases l with
  | nil => simp [splitSp]
  | cons c rest =>
      simp only [splitSp]
      split
      · simp
      · cases h : splitSp rest <;> simp

/-- Equation of `joinSp` for two or more pieces. -/
theorem joinSp_cons_cons (w v : List Char) (ws : List (List Char)) :
    joinSp (w :: v :: ws) = w ++ ' ' :: joinSp (v :: ws) := rfl

/-- Splitting at spaces and joining with spaces is the identity. -/
theorem joinSp_splitSp (l : List Char) : joinSp (splitSp l) = l := by
  induction l with
  | nil => rfl
  | cons c rest ih =>
      obtain ⟨w, ws, hw⟩ : ∃ w ws, splitSp rest = w :: ws := by
        cases h : splitSp rest with
        | nil => exact absurd h (splitSp_ne_nil rest)
        | cons w ws => exact ⟨w, ws, rfl⟩
      rw [hw] at ih
      by_cases hc : c = ' '
      · subst hc
        have h1 : splitSp (' ' :: rest) = [] :: splitSp rest := by
          simp [splitSp]
        rw [h1, hw, joinSp_cons_cons]
        simpa using ih
      · have h1 : splitSp (c :: rest) = (c :: w) :: ws := by
          simp only [splitSp, hw]
          rw [if_neg (by simpa using hc)]
        rw [h1]
        cases ws with
        | nil =>
            show c :: w = c :: rest
            simpa [joinSp] using ih
        | cons v vs =>
            rw [joinSp_cons_cons] at ih ⊢
            show c :: (w ++ ' ' :: joinSp (v :: vs)) = c :: rest
            rw [ih]

/-- The pieces of `splitSp` contain no spaces. -/
theorem splitSp_no_space (l : List Char) :
    ∀ w ∈ splitSp l, ' ' ∉ w := by
  induction l with
  | nil =>
      intro w hw
      simp [splitSp] at hw
      simp [hw]
  | cons c rest ih =>
      intro w hw
      obtain ⟨w0, ws, hw0⟩ : ∃ w0 ws, splitSp rest = w0 :: ws := by
        cases h : splitSp rest with
        | nil => exact absurd h (splitSp_ne_nil rest)
        | cons w0 ws => exact ⟨w0, ws, rfl⟩
      by_cases hc : c = ' '
      · subst hc
        have h1 : splitSp (' ' :: rest) = [] :: splitSp rest := by simp [splitSp]
        rw [h1] at hw
        rcases List.mem_cons.mp hw with h | h
        · simp [h]
        · exact ih w h
      · have h1 : splitSp (c :: rest) = (c :: w0) :: ws := by
          simp only [splitSp, hw0]
          rw [if_neg (by simpa using hc)]
        rw [h1] at hw
        rcases List.mem_cons.mp hw with h | h
        · subst h
          intro hmem
          rcases List.mem_cons.mp hmem with h | h
          · exact hc h.symm
          · exact ih w0 (by simp [hw0]) h
        · exact ih w (by simp [hw0, h])

/-- Characters of `splitSp` pieces come from the source list. -/
theorem mem_splitSp (l : List Char) :
    ∀ w ∈ splitSp l, ∀ c ∈ w, c ∈ l := by
  induction l with
  | nil =>
      intro w hw c hc
      simp [splitSp] at hw
      subst hw
      simp at hc
  | cons a rest ih =>
      intro w hw c hc
      obtain ⟨w0, ws, hw0⟩ : ∃ w0 ws, splitSp rest = w0 :: ws := by
        cases h : splitSp rest with
        | nil => exact absurd h (splitSp_ne_nil rest)
        | cons w0 ws => exact ⟨w0, ws, rfl⟩
      by_cases ha : a = ' '
      · subst ha
        have h1 : splitSp (' ' :: rest) = [] :: splitSp rest := by simp [splitSp]
        rw [h1] at hw
        rcases List.mem_cons.mp hw with h | h
        · subst h; simp at hc
        · exact List.mem_cons_of_mem _ (ih w h c hc)
      · have h1 : splitSp (a :: rest) = (a :: w0) :: ws := by
          simp only [splitSp, hw0]
          rw [if_neg (by simpa using ha)]
        rw [h1] at hw
        rcases List.mem_cons.mp hw with h | h
        · subst h
          rcases List.mem_cons.mp hc with h | h
          · simp [h]
          · exact List.mem_cons_of_mem _ (ih w0 (by simp [hw0]) c h)
        · exact List.mem_cons_of_mem _ (ih w (by simp [hw0, h]) c hc)

/-- A space-free list splits into itself. -/
theorem splitSp_of_no_space (w : List Char) (h : ' ' ∉ w) :
    splitSp w = [w] := by
  induction w with
  | nil => rfl
  | cons c rest ih =>
      have hc : c ≠ ' ' := fun hc => h (by simp [hc])
      have hr : splitSp rest = [rest] := ih (fun hm => h (by simp [hm]))
      simp only [splitSp, hr]
      rw [if_neg (by simpa using fun hcc => hc hcc)]

/-- Splitting a space-free piece followed by a space. -/
theorem splitSp_append_space (w : List Char) (h : ' ' ∉ w) (t : List Char) :
    splitSp (w ++ ' ' :: t) = w :: splitSp t := by
  induction w with
  | nil => simp [splitSp]
  | cons c rest ih =>
      have hc : c ≠ ' ' := fun hc => h (by simp [hc])
      have hr := ih (fun hm => h (by simp [hm]))
      simp only [List.cons_append, splitSp, List.append_eq, hr]
      rw [if_neg (by simpa using fun hcc => hc hcc)]

/-- Joining space-free pieces and re-splitting recovers the pieces. -/
theorem splitSp_joinSp (ws : List (List Char)) (hne : ws ≠ [])
    (h : ∀ w ∈ ws, ' ' ∉ w) : splitSp (joinSp ws) = ws := by
  induction ws with
  | nil => exact absurd rfl hne
  | cons w ws ih =>
      cases ws with
      | nil =>
          show splitSp (joinSp [w]) = [w]
          exact splitSp_of_no_space w (h w (by simp))
      | cons v vs =>
          rw [joinSp_cons_cons]
          rw [splitSp_append_space w (h w (by simp)) _]
          rw [ih (by simp) (fun u hu => h u (by simp [hu]))]

/-- The uppercase table values are ASCII. -/
theorem upperPairs_ascii : ∀ p ∈ upperPairs, p.2.toNat < 128 := by decide

/-- The lowercase table values are ASCII. -/
theorem lowerPairs_ascii : ∀ p ∈ lowerPairs, p.2.toNat < 128 := by decide

/-- Simple uppercasing keeps ASCII characters ASCII. -/
theorem upCh_ascii (c : Char) (h : c.toNat < 128) : (upCh c).toNat < 128 := by
  rcases upCh_cases c with h2 | ⟨p, hp, h2⟩
  · rw [h2]; exact h
  · rw [h2]; exact upperPairs_ascii p hp

/-- Simple lowercasing keeps ASCII characters ASCII. -/
theorem lowCh_ascii (c : Char) (h : c.toNat < 128) : (lowCh c).toNat < 128 := by
  rcases lowCh_cases c with h2 | ⟨p, hp, h2⟩
  · rw [h2]; exact h
  · rw [h2]; exact lowerPairs_ascii p hp

/-- On an ASCII character the string-valued uppercase mapping is the simple
one ('ß' is not ASCII). -/
theorem upChS_ascii (c : Char) (h : c.toNat < 128) : upChS c = [upCh c] := by
  have hne : c ≠ 'ß' := by
    intro hc
    subst hc
    exact absurd h (by decide)
  simp [upChS, hne]

/-- On an ASCII character the string-valued lowercase mapping is the simple
one ('İ' is not ASCII). -/
theorem lowChS_ascii (c : Char) (h : c.toNat < 128) : lowChS c = [lowCh c] := by
  have hne : c ≠ 'İ' := by
    intro hc
    subst hc
    exact absurd h (by decide)
  simp [lowChS, hne]

/-- On ASCII characters the string-valued lowercasing is the character map. -/
theorem lowerAll_ascii (cs : List Char) (h : allAscii cs) :
    lowerAll cs = cs.map lowCh := by
  induction cs with
  | nil => rfl
  | cons c cs ih =>
      rw [lowerAll, lowChS_ascii c (h c (by simp)),
        ih (fun d hd => h d (by simp [hd]))]
      rfl

/-- On an ASCII word, capitalization is the simple per-character one. -/
theorem capWord_ascii (c : Char) (cs : List Char) (h : allAscii (c :: cs)) :
    capWord (c :: cs) = upCh c :: cs.map lowCh := by
  show upChS c ++ lowerAll cs = _
  rw [upChS_ascii c (h c (by simp)),
    lowerAll_ascii cs (fun d hd => h d (by simp [hd]))]
  rfl

/-- Capitalization keeps ASCII words ASCII. -/
theorem allAscii_capWord (w : List Char) (h : allAscii w) :
    allAscii (capWord w) := by
  cases w with
  | nil => intro c hc; simp [capWord, lowerAll] at hc
  | cons a cs =>
      rw [capWord_ascii a cs h]
      intro c hc
      rcases List.mem_cons.mp hc with h2 | h2
      · subst h2; exact upCh_ascii a (h a (by simp))
      · obtain ⟨d, hd, rfl⟩ := List.mem_map.mp h2
        exact lowCh_ascii d (h d (by simp [hd]))

/-- Capitalization preserves the length of an ASCII word. -/
theorem capWord_length (w : List Char) (hA : allAscii w) :
    (capWord w).length = w.length := by
  cases w with
  | nil => rfl
  | cons c cs => rw [capWord_ascii c cs hA]; simp

/-- Capitalization of ASCII words is idempotent. -/
theorem capWord_capWord (w : List Char) (hA : allAscii w) :
    capWord (capWord w) = capWord w := by
  cases w with
  | nil => rfl
  | cons c cs =>
      rw [capWord_ascii c cs hA]
      have h2 : allAscii (upCh c :: cs.map lowCh) := by
        have := allAscii_capWord (c :: cs) hA
        rwa [capWord_ascii c cs hA] at this
      rw [capWord_ascii _ _ h2]
      simp only [upCh_upCh, List.map_map, List.cons.injEq, true_and]
      exact List.map_congr_left (fun a _ => lowCh_lowCh a)

/-- Capitalization keeps ASCII words space-free. -/
theorem capWord_no_space (w : List Char) (hA : allAscii w) (h : ' ' ∉ w) :
    ' ' ∉ capWord w := by
  cases w with
  | nil => simp [capWord]
  | cons c cs =>
      rw [capWord_ascii c cs hA]
      simp only [List.mem_cons, not_or] at h ⊢
      refine ⟨?_, ?_⟩
      · intro hc
        exact h.1 (((upCh_space_iff c).mp hc.symm).symm)
      · intro hm
        obtain ⟨d, hd, hds⟩ := List.mem_map.mp hm
        exact h.2 (((lowCh_space_iff d).mp hds).symm ▸ hd)

/-- Characters of a capitalized ASCII word are case-mapped source
characters. -/
theorem mem_capWord (c : Char) (w : List Char) (hA : allAscii w)
    (h : c ∈ capWord w) : ∃ d ∈ w, c = upCh d ∨ c = lowCh d := by
  cases w with
  | nil => simp [capWord, lowerAll] at h
  | cons a cs =>
      rw [capWord_ascii a cs hA] at h
      rcases List.mem_cons.mp h with h | h
      · exact ⟨a, by simp, Or.inl h⟩
      · obtain ⟨d, hd, hds⟩ := List.mem_map.mp h
        exact ⟨d, by simp [hd], Or.inr hds.symm⟩

/-- Joining capitalized ASCII pieces has the same length as joining the
pieces. -/
theorem joinSp_length_capWord (ws : List (List Char))
    (hA : ∀ w ∈ ws, allAscii w) :
    (joinSp (ws.map capWord)).length = (joinSp ws).length := by
  induction ws with
  | nil => rfl
  | cons w ws ih =>
      cases ws with
      | nil =>
          show (capWord w).length = w.length
          exact capWord_length w (hA w (by simp))
      | cons v vs =>
          simp only [List.map_cons] at ih ⊢
          rw [joinSp_cons_cons, joinSp_cons_cons]
          simp only [List.length_append, List.length_cons]
          rw [capWord_length w (hA w (by simp)),
            ih (fun u hu => hA u (by simp [List.mem_cons.mp hu]))]

/-- Characters of a join are spaces or characters of some piece. -/
theorem mem_joinSp (c : Char) (ws : List (List Char)) (h : c ∈ joinSp ws) :
    c = ' ' ∨ ∃ w ∈ ws, c ∈ w := by
  induction ws with
  | nil => simp [joinSp] at h
  | cons w ws ih =>
      cases ws with
      | nil =>
          exact Or.inr ⟨w, by simp, by simpa [joinSp] using h⟩
      | cons v vs =>
          rw [joinSp_cons_cons] at h
          rcases List.mem_append.mp h with h | h
          · exact Or.inr ⟨w, by simp, h⟩
          · rcases List.mem_cons.mp h with h | h
            · exact Or.inl h
            · rcases ih h with h | ⟨u, hu, hc⟩
              · exact Or.inl h
              · exact Or.inr ⟨u, by simp [List.mem_cons.mp hu], hc⟩

/-- Capitalizing an ASCII word preserves its space skeleton. -/
theorem spaces_capWord (w : List Char) (hA : allAscii w) :
    (capWord w).map spB = w.map spB := by
  cases w with
  | nil => rfl
  | cons c cs =>
      rw [capWord_ascii c cs hA]
      simp only [List.map_cons, List.map_map, List.cons.injEq]
      exact ⟨spB_upCh c, List.map_congr_left (fun a _ => spB_lowCh a)⟩

/-- Capitalizing every ASCII piece preserves the space skeleton of the
join. -/
theorem spaces_joinSp (ws : List (List Char)) (hA : ∀ w ∈ ws, allAscii w) :
    (joinSp (ws.map capWord)).map spB = (joinSp ws).map spB := by
  induction ws with
  | nil => rfl
  | cons w ws ih =>
      cases ws with
      | nil => simpa [joinSp] using spaces_capWord w (hA w (by simp))
      | cons v vs =>
          simp only [List.map_cons] at ih ⊢
          rw [joinSp_cons_cons, joinSp_cons_cons]
          simp only [List.map_append, List.map_cons]
          rw [spaces_capWord w (hA w (by simp)),
            ih (fun u hu => hA u (by simp [List.mem_cons.mp hu]))]

/-- The pieces of splitting an ASCII list are ASCII. -/
theorem allAscii_splitSp (l : List Char) (hA : allAscii l) :
    ∀ w ∈ splitSp l, allAscii w :=
  fun w hw c hc => hA c (mem_splitSp l w hw c hc)

/-- Title-casing an ASCII list preserves the space skeleton. -/
theorem spaces_titleCase (l : List Char) (hA : allAscii l) :
    (titleCase l).map spB = l.map spB := by
  unfold titleCase
  rw [spaces_joinSp _ (allAscii_splitSp l hA), joinSp_splitSp]

/-- The no-adjacent-spaces property transfers along equal space skeletons. -/
theorem chain'_of_spaces_eq :
    ∀ (l₁ l₂ : List Char), l₁.map spB = l₂.map spB →
      l₂.Chain' spR → l₁.Chain' spR := by
  intro l₁
  induction l₁ with
  | nil => intro l₂ _ _; simp
  | cons a l ih =>
      intro l₂ hm hc
      cases l₂ with
      | nil => simp at hm
      | cons b m =>
          simp only [List.map_cons, List.cons.injEq] at hm
          obtain ⟨hab, hlm⟩ := hm
          rw [List.chain'_cons'] at hc ⊢
          obtain ⟨hhead, htail⟩ := hc
          refine ⟨?_, ih m hlm htail⟩
          intro y hy
          cases l with
          | nil => simp at hy
          | cons y' l' =>
              have hy'' : y = y' := by
                have := hy
                simp at this
                exact this.symm
              subst hy''
              cases m with
              | nil => simp at hlm
              | cons z m' =>
                  simp only [List.map_cons, List.cons.injEq] at hlm
                  obtain ⟨hyz, _⟩ := hlm
                  have hz := hhead z (by simp)
                  intro hcon
                  obtain ⟨ha, hy1⟩ := hcon
                  apply hz
                  constructor
                  · have : spB b = true := by rw [← hab, ha]; decide
                    simpa [spB] using this
                  · have : spB z = true := by rw [← hyz, hy1]; decide
                    simpa [spB] using this

/-- After a whitespace run, the collapsed output never starts with a
space. -/
theorem collapseAux_head_not_space (l : List Char) :
    ∀ c, (collapseAux true l).head? = some c → c ≠ ' ' := by
  induction l with
  | nil => intro c h; simp [collapseAux] at h
  | cons x rest ih =>
      intro c h
      by_cases hx : isWs x = true
      · rw [show collapseAux true (x :: rest) = collapseAux true rest by
          simp [collapseAux, hx]] at h
        exact ih c h
      · rw [show collapseAux true (x :: rest) = x :: collapseAux false rest by
          simp [collapseAux, hx]] at h
        simp only [List.head?_cons, Option.some.injEq] at h
        subst h
        intro hc
        subst hc
        simp [isWs] at hx

/-- Collapsed output has no two adjacent spaces. -/
theorem collapseAux_chain' (l : List Char) :
    ∀ b, (collapseAux b l).Chain' spR := by
  induction l with
  | nil => intro b; simp [collapseAux]
  | cons x rest ih =>
      intro b
      by_cases hx : isWs x = true
      · cases b with
        | true =>
            rw [show collapseAux true (x :: rest) = collapseAux true rest by
              simp [collapseAux, hx]]
            exact ih true
        | false =>
            rw [show collapseAux false (x :: rest)
                = ' ' :: collapseAux true rest by simp [collapseAux, hx]]
            rw [List.chain'_cons']
            refine ⟨?_, ih true⟩
            intro y hy
            have hne : y ≠ ' ' :=
              collapseAux_head_not_space rest y (by simpa using hy)
            intro hcon
            exact hne hcon.2
      · rw [show collapseAux b (x :: rest) = x :: collapseAux false rest by
          simp [collapseAux, hx]]
        rw [List.chain'_cons']
        refine ⟨?_, ih false⟩
        intro y hy
        intro hcon
        rw [hcon.1] at hx
        simp [isWs] at hx

/-- Whitespace in collapsed output is exactly the space character. -/
theorem collapseAux_ws_space (l : List Char) :
    ∀ b, ∀ c ∈ collapseAux b l, isWs c = true → c = ' ' := by
  induction l with
  | nil => intro b c hc; simp [collapseAux] at hc
  | cons x rest ih =>
      intro b c hc hcw
      by_cases hx : isWs x = true
      · cases b with
        | true =>
            rw [show collapseAux true (x :: rest) = collapseAux true rest by
              simp [collapseAux, hx]] at hc
            exact ih true c hc hcw
        | false =>
            rw [show collapseAux false (x :: rest)
                = ' ' :: collapseAux true rest by simp [collapseAux, hx]] at hc
            rcases List.mem_cons.mp hc with h | h
            · exact h
            · exact ih true c h hcw
      · rw [show collapseAux b (x :: rest) = x :: collapseAux false rest by
          simp [collapseAux, hx]] at hc
        rcases List.mem_cons.mp hc with h | h
        · subst h; exact absurd hcw (by simpa using hx)
        · exact ih false c h hcw

/-- Characters of collapsed output are spaces or source characters. -/
theorem collapseAux_subset (l : List Char) :
    ∀ b, ∀ c ∈ collapseAux b l, c = ' ' ∨ c ∈ l := by
  induction l with
  | nil => intro b c hc; simp [collapseAux] at hc
  | cons x rest ih =>
      intro b c hc
      by_cases hx : isWs x = true
      · cases b with
        | true =>
            rw [show collapseAux true (x :: rest) = collapseAux true rest by
              simp [collapseAux, hx]] at hc
            rcases ih true c hc with h | h
            · exact Or.inl h
            · exact Or.inr (by simp [h])
        | false =>
            rw [show collapseAux false (x :: rest)
                = ' ' :: collapseAux true rest by simp [collapseAux, hx]] at hc
            rcases List.mem_cons.mp hc with h | h
            · exact Or.inl h
            · rcases ih true c h with h2 | h2
              · exact Or.inl h2
              · exact Or.inr (by simp [h2])
      · rw [show collapseAux b (x :: rest) = x :: collapseAux false rest by
          simp [collapseAux, hx]] at hc
        rcases List.mem_cons.mp hc with h | h
        · exact Or.inr (by simp [h])
        · rcases ih false c h with h2 | h2
          · exact Or.inl h2
          · exact Or.inr (by simp [h2])

/-- A list whose whitespace is single spaces with none adjacent is a fixed
point of whitespace collapsing. -/
theorem collapseAux_fix (l : List Char) :
    ∀ b, (∀ c ∈ l, isWs c = true → c = ' ') → l.Chain' spR →
      (b = true → l.head? ≠ some ' ') → collapseAux b l = l := by
  induction l with
  | nil => intro b _ _ _; simp [collapseAux]
  | cons x rest ih =>
      intro b hws hch hhd
      by_cases hx : isWs x = true
      · have hxsp : x = ' ' := hws x (by simp) hx
        subst hxsp
        cases b with
        | true => exact absurd (by simp) (hhd rfl)
        | false =>
            rw [show collapseAux false (' ' :: rest)
                = ' ' :: collapseAux true rest by simp [collapseAux, hx]]
            congr 1
            apply ih true
            · intro c hc hcw
              exact hws c (by simp [hc]) hcw
            · exact (List.chain'_cons'.mp hch).2
            · intro _
              intro hr
              have := (List.chain'_cons'.mp hch).1 ' ' (by simp [hr])
              exact this ⟨rfl, rfl⟩
      · rw [show collapseAux b (x :: rest) = x :: collapseAux false rest by
          simp [collapseAux, hx]]
        congr 1
        apply ih false
        · intro c hc hcw
          exact hws c (by simp [hc]) hcw
        · exact (List.chain'_cons'.mp hch).2
        · intro h
          exact absurd h (by simp)

/-- A list with no whitespace at either end and only space whitespace is a
fixed point of trimming. -/
theorem jsTrim_fix (l : List Char)
    (hws : ∀ c ∈ l, isWs c = true → c = ' ')
    (h1 : l.head? ≠ some ' ') (h2 : l.getLast? ≠ some ' ') : jsTrim l = l := by
  have hd : l.dropWhile isWs = l := by
    cases l with
    | nil => rfl
    | cons c rest =>
        have hc : isWs c = false := by
          by_contra h
          have hb : isWs c = true := by
            revert h
            cases isWs c <;> simp
          have := hws c (by simp) hb
          exact h1 (by simp [this])
        rw [List.dropWhile_cons]
        simp [hc]
  have hrev : l.reverse.dropWhile isWs = l.reverse := by
    cases hr : l.reverse with
    | nil => simp
    | cons c rest =>
        have hc_last : l.getLast? = some c := by
          rw [← List.head?_reverse, hr]
          rfl
        have hcne : c ≠ ' ' := fun h => h2 (h ▸ hc_last)
        have hcin : c ∈ l := by
          have : c ∈ l.reverse := by simp [hr]
          simpa using this
        have hc : isWs c = false := by
          by_contra h
          have hb : isWs c = true := by
            revert h
            cases isWs c <;> simp
          exact hcne (hws c hcin hb)
        rw [List.dropWhile_cons]
        simp [hc]
  rw [jsTrim, hd, hrev, List.reverse_reverse]

/-- Splitting a title-cased ASCII string yields the capitalized pieces of
the original split. -/
theorem splitSp_titleCase (l : List Char) (hA : allAscii l) :
    splitSp (titleCase l) = (splitSp l).map capWord := by
  unfold titleCase
  apply splitSp_joinSp
  · simpa using splitSp_ne_nil l
  · intro w hw
    obtain ⟨v, hv, rfl⟩ := List.mem_map.mp hw
    exact capWord_no_space v (allAscii_splitSp l hA v hv)
      (splitSp_no_space l v hv)

/-- Title-casing of ASCII strings is idempotent. -/
theorem titleCase_titleCase (l : List Char) (hA : allAscii l) :
    titleCase (titleCase l) = titleCase l := by
  rw [show titleCase (titleCase l)
      = joinSp ((splitSp (titleCase l)).map capWord) from rfl]
  rw [splitSp_titleCase l hA, List.map_map]
  unfold titleCase
  congr 1
  exact List.map_congr_left
    (fun w hw => capWord_capWord w (allAscii_splitSp l hA w hw))

/-- Title-casing preserves the length of an ASCII string. -/
theorem titleCase_length (l : List Char) (hA : allAscii l) :
    (titleCase l).length = l.length := by
  unfold titleCase
  rw [joinSp_length_capWord _ (allAscii_splitSp l hA), joinSp_splitSp]

/-- Characters of a title-cased ASCII string are spaces or case-mapped
source characters. -/
theorem mem_titleCase (c : Char) (l : List Char) (hA : allAscii l)
    (h : c ∈ titleCase l) :
    c = ' ' ∨ ∃ d ∈ l, c = upCh d ∨ c = lowCh d := by
  unfold titleCase at h
  rcases mem_joinSp c _ h with h | ⟨w, hw, hc⟩
  · exact Or.inl h
  · obtain ⟨v, hv, rfl⟩ := List.mem_map.mp hw
    obtain ⟨d, hd, hud⟩ := mem_capWord c v (allAscii_splitSp l hA v hv) hc
    exact Or.inr ⟨d, mem_splitSp l v hv d hd, hud⟩

/-- Characters of a trimmed list come from the source list. -/
theorem jsTrim_subset (l : List Char) : ∀ c ∈ jsTrim l, c ∈ l := by
  intro c hc
  unfold jsTrim at hc
  rw [List.mem_reverse] at hc
  have h1 := (List.dropWhile_sublist isWs).subset hc
  rw [List.mem_reverse] at h1
  exact (List.dropWhile_sublist isWs).subset h1

/-- Invariants of the normalized form of an ASCII title: it is ASCII, its
whitespace consists of single spaces with none adjacent, it carries no
`#`/`@` markers, it is at most 60 characters long, and it is a fixed point
of title-casing. -/
theorem normTitleL_invariants (l : List Char) (hA : allAscii l) :
    (∀ c ∈ normTitleL l, isWs c = true → c = ' ') ∧
    (normTitleL l).Chain' spR ∧
    (∀ c ∈ normTitleL l, (c == '#' || c == '@') = false) ∧
    (normTitleL l).length ≤ 60 ∧
    titleCase (normTitleL l) = normTitleL l := by
  have hT : normTitleL l = titleCase
      ((collapseWs ((jsTrim l).filter
        (fun c => !(c == '#' || c == '@')))).take 60) := rfl
  set x := (collapseWs ((jsTrim l).filter
    (fun c => !(c == '#' || c == '@')))).take 60 with hxdef
  have hxA : allAscii x := by
    intro c hc
    rcases collapseAux_subset _ false c (List.take_subset 60 _ hc) with h | h
    · subst h; decide
    · exact hA c (jsTrim_subset l c (List.mem_of_mem_filter h))
  have hxws : ∀ c ∈ x, isWs c = true → c = ' ' := by
    intro c hc
    exact collapseAux_ws_space _ false c (List.take_subset 60 _ hc)
  have hxch : x.Chain' spR := (collapseAux_chain' _ false).take 60
  have hxmk : ∀ c ∈ x, (c == '#' || c == '@') = false := by
    intro c hc
    rcases collapseAux_subset _ false c (List.take_subset 60 _ hc) with h | h
    · subst h; decide
    · simpa using List.of_mem_filter h
  have hxlen : x.length ≤ 60 := by
    simp [hxdef, List.length_take]
  refine ⟨?_, ?_, ?_, ?_, ?_⟩
  · intro c hc hcw
    rw [hT] at hc
    rcases mem_titleCase c x hxA hc with h | ⟨d, hd, h | h⟩
    · exact h
    · subst h; exact upCh_ws_space d (hxws d hd) hcw
    · subst h; exact lowCh_ws_space d (hxws d hd) hcw
  · rw [hT]
    exact chain'_of_spaces_eq _ x (spaces_titleCase x hxA) hxch
  · intro c hc
    rw [hT] at hc
    rcases mem_titleCase c x hxA hc with h | ⟨d, hd, h | h⟩
    · subst h; decide
    · subst h; exact upCh_notMark d (hxmk d hd)
    · subst h; exact lowCh_notMark d (hxmk d hd)
  · rw [hT, titleCase_length x hxA]
    exact hxlen
  · rw [hT]
    exact titleCase_titleCase x hxA

/-- A string satisfying the normalized-title invariants, with no leading or
trailing space, is a fixed point of title normalization. -/
theorem normTitleL_fix (t : List Char)
    (hws : ∀ c ∈ t, isWs c = true → c = ' ') (hch : t.Chain' spR)
    (hmk : ∀ c ∈ t, (c == '#' || c == '@') = false)
    (hlen : t.length ≤ 60) (htc : titleCase t = t)
    (h1 : t.head? ≠ some ' ') (h2 : t.getLast? ≠ some ' ') :
    normTitleL t = t := by
  unfold normTitleL
  rw [jsTrim_fix t hws h1 h2]
  rw [List.filter_eq_self.mpr (by intro c hc; simpa using hmk c hc)]
  rw [collapseWs, collapseAux_fix t false hws hch (by intro h; cases h)]
  rw [List.take_of_length_le hlen, htc]

set_option maxRecDepth 4000 in
/-- C5 counterexample: the input "a #" normalizes to "A " (stripping the
marker leaves a trailing space) and normalizing again trims it to "A", so
the normalization is not idempotent; and the title 'ß' followed by seventy
'a's normalizes to 61 characters — Title-Casing runs after the 60-character
truncation and uppercases 'ß' to "SS" — with no edge space, refuting the
60-character bound and idempotence even on edge-space-free outputs. -/
theorem normalizeVideoTitle_counterexample :
    normalizeVideoTitle "a #" = "A " ∧
    normalizeVideoTitle (normalizeVideoTitle "a #") = "A" ∧
    normalizeVideoTitle (normalizeVideoTitle "a #")
      ≠ normalizeVideoTitle "a #" ∧
    60 < (normalizeVideoTitle ⟨'ß' :: List.replicate 70 'a'⟩).length ∧
    (normalizeVideoTitle ⟨'ß' :: List.replicate 70 'a'⟩).data.head?
      ≠ some ' ' ∧
    (normalizeVideoTitle ⟨'ß' :: List.replicate 70 'a'⟩).data.getLast?
      ≠ some ' ' ∧
    normalizeVideoTitle (normalizeVideoTitle ⟨'ß' :: List.replicate 70 'a'⟩)
      ≠ normalizeVideoTitle ⟨'ß' :: List.replicate 70 'a'⟩ := by
  refine ⟨by decide, by decide, by decide, by decide, by decide, by decide,
    by decide⟩

/-- C5 (amended): for every title made of ASCII characters — on which the
ECMAScript case conversions are single-character — the output of title
normalization never exceeds 60 characters, and normalization is idempotent
on every such input whose normalized form has no leading or trailing space
(truncation at 60 characters or `#`/`@` stripping can leave an edge space,
which a second pass trims). Outside ASCII, an expanding case mapping such
as 'ß' to "SS", applied after the truncation, can produce 61 characters and
break idempotence. -/
theorem normalizeVideoTitle_props (s : String)
    (hA : ∀ c ∈ s.data, c.toNat < 128) :
    (normalizeVideoTitle s).length ≤ 60 ∧
    ((normalizeVideoTitle s).data.head? ≠ some ' ' →
      (normalizeVideoTitle s).data.getLast? ≠ some ' ' →
      normalizeVideoTitle (normalizeVideoTitle s) = normalizeVideoTitle s) := by
  obtain ⟨hws, hch, hmk, hlen, htc⟩ := normTitleL_invariants s.data hA
  constructor
  · exact hlen
  · intro h1 h2
    have hfix := normTitleL_fix (normTitleL s.data) hws hch hmk hlen htc h1 h2
    calc normalizeVideoTitle (normalizeVideoTitle s)
        = ⟨normTitleL (normTitleL s.data)⟩ := rfl
      _ = ⟨normTitleL s.data⟩ := congrArg String.mk hfix
      _ = normalizeVideoTitle s := rfl

/-- Witness for C5: the ASCII title "hello world" normalizes to
"Hello World", which has no edge spaces, and a second normalization leaves
it unchanged. -/
theorem normalizeVideoTitle_props_witness :
    (∀ c ∈ "hello world".data, c.toNat < 128) ∧
    (normalizeVideoTitle "hello world").data.head? ≠ some ' ' ∧
    (normalizeVideoTitle "hello world").data.getLast? ≠ some ' ' ∧
    normalizeVideoTitle (normalizeVideoTitle "hello world")
      = normalizeVideoTitle "hello world" :=
  ⟨by decide, by decide, by decide,
   (normalizeVideoTitle_props "hello world" (by decide)).2
     (by decide) (by decide)⟩

end SmartVault
